import Mathlib

set_option autoImplicit false

/-!
# Verification of `miner/cached_calls.py` (Phobos `CachedCallsMiner`)

Shallow embedding of the cached-calls miner: derivation of a human-readable
key from a loaded call record, grouping of cache files by derived key,
collision resolution by filename suffix, lazy one-time construction of the
name → source-file map, and the lookup facade (`contname_iter` / `get_data`).

External collaborators (`reverence`'s marshal loader, `EveNormalizer`, the
`_secure_name` transform inherited from `AbstractMiner`) are opaque in the
source component and are modelled as parameters.
-/

namespace Phobos

/-- A Python value as far as this component inspects it: the code only ever
asks `isinstance(x, (tuple, list))` and otherwise hands values to the opaque
`_secure_name` transform, so a value is either a sequence of values or an
atom (identified by an abstract label). -/
inductive PyObj : Type where
  | atom : String → PyObj
  | seq : List PyObj → PyObj

/-- Model of `os.path.basename` on a POSIX path, on the character list: everything
after the last separator. -/
def basenameList (l : List Char) : List Char :=
  l.foldl (fun acc c => if c = '/' then [] else acc ++ [c]) []

/-- Model of `os.path.basename` on a POSIX path. -/
def basename (p : String) : String :=
  String.mk (basenameList p.toList)

/-- Split a character list at its last dot: `some (pre, post)` where `pre`
are the characters before the last `'.'` and `post` those after it. -/
def lastDotSplit : List Char → Option (List Char × List Char)
  | [] => none
  | c :: cs =>
    match lastDotSplit cs with
    | some (pre, post) => some (c :: pre, post)
    | none => if c = '.' then some ([], cs) else none

/-- Model of `os.path.splitext(b)[0]` for a bare filename `b` (no separators):
CPython splits at the last dot provided some character strictly before that
dot is not itself a dot (leading dots alone never start an extension). -/
def splitextStem (b : List Char) : List Char :=
  match lastDotSplit b with
  | some (pre, _) => if pre.any (fun c => c != '.') then pre else b
  | none => b

/-- Model of `os.path.splitext(b)[0]` on a filename string. -/
def stemOf (b : String) : String :=
  String.mk (splitextStem b.toList)

/-- The `safe_call_name` computation of `_name_source_map` (lines 83–97 of
`cached_calls.py`): split the record into `svc_info` and the rest; a
tuple/list head yields a service name and service args, a bare head a
service name with no args; the first remaining element is the call name and
the rest are call args; every component goes through `secure` (the
`_secure_name` transform) and the parts are composed as
`svc(args)_call(args)`.  `none` models the `IndexError` the code raises
outside its try block when the record (or a sequence head) is too short. -/
def deriveKey (secure : PyObj → String) : List PyObj → Option String
  | [] => none
  | svcInfo :: callInfo =>
    let svcParsed : Option (String × List PyObj) :=
      match svcInfo with
      | .seq [] => none
      | .seq (n :: args) => some (secure n, args)
      | .atom a => some (secure (.atom a), [])
    match svcParsed, callInfo with
    | some (svcName, svcArgs), callName :: callArgs =>
      some (svcName ++ "(" ++ String.intercalate ", " (svcArgs.map secure) ++ ")_"
        ++ secure callName ++ "(" ++ String.intercalate ", " (callArgs.map secure) ++ ")")
    | _, _ => none

/-- Outcome of `__read_cache_file` on one file during the scan: a loaded
record (`call_info`; the payload is irrelevant for index construction), an
ordinary exception, or a `KeyboardInterrupt`. -/
inductive LoadOutcome : Type where
  | ok : List PyObj → LoadOutcome
  | err : LoadOutcome
  | interrupt : LoadOutcome

/-- Whether the outcome is an ordinary load failure. -/
def LoadOutcome.isErr : LoadOutcome → Bool
  | .err => true
  | _ => false

/-- One file produced by the `glob` enumeration: its full path and what
loading it does. -/
structure ScanFile : Type where
  path : String
  outcome : LoadOutcome

/-- The diagnostic printed for a file that failed to load
(line 77 of `cached_calls.py`). -/
def diagMsg (p : String) : String :=
  "  unable to load cache file " ++ basename p

/-- How the index build can abort: a propagated `KeyboardInterrupt`, or a
record-decomposition `IndexError` raised outside the per-file guard
(carrying the offending file's path). -/
inductive BuildErr : Type where
  | interrupted : BuildErr
  | decompFailure : String → BuildErr

/-- Model of `safecall_filepath_map.setdefault(key, set()).add(path)`: the groups
are kept in dict insertion order; each group's path list has set semantics
(no duplicate entries). -/
def addToGroup : List (String × List String) → String → String → List (String × List String)
  | [], key, p => [(key, [p])]
  | (k, ps) :: rest, key, p =>
    if k = key then (k, if p ∈ ps then ps else ps ++ [p]) :: rest
    else (k, ps) :: addToGroup rest key p

/-- The scan loop of `_name_source_map` (lines 69–99): for each file, a
`KeyboardInterrupt` propagates, an ordinary load failure prints a
diagnostic and skips the file, and a loaded record has its key derived
(an undecomposable record raises outside the guard) and its path added to
that key's group. -/
def scanAux (secure : PyObj → String) :
    List ScanFile → List (String × List String) → List String →
    Except BuildErr (List (String × List String) × List String)
  | [], gs, ds => .ok (gs, ds)
  | ⟨_, .interrupt⟩ :: _, _, _ => .error .interrupted
  | ⟨p, .err⟩ :: rest, gs, ds => scanAux secure rest gs (ds ++ [diagMsg p])
  | ⟨p, .ok info⟩ :: rest, gs, ds =>
    match deriveKey secure info with
    | none => .error (.decompFailure p)
    | some k => scanAux secure rest (addToGroup gs k p) ds

/-- Run the scan loop from empty accumulators, returning the
key → path-set map and the printed diagnostics. -/
def buildGroups (secure : PyObj → String) (files : List ScanFile) :
    Except BuildErr (List (String × List String) × List String) :=
  scanAux secure files [] []

/-- The finalization loop (lines 101–115): a group of more than one path
gets one entry per path named `key_stem`, a smaller group gets entries
named the bare key.  The result is the sequence of dict assignments the
loop performs, in order. -/
def finalizePairs : List (String × List String) → List (String × String)
  | [] => []
  | (k, ps) :: rest =>
    (if 1 < ps.length
      then ps.map (fun p => (k ++ "_" ++ stemOf (basename p), p))
      else ps.map (fun p => (k, p)))
    ++ finalizePairs rest

/-- The names assigned by finalization, in assignment order. -/
def finalNames (gs : List (String × List String)) : List String :=
  (finalizePairs gs).map Prod.fst

/-- A single Python dict assignment `m[k] = v`: overwrite in place if the
key exists, else append. -/
def dictInsert : List (String × String) → String → String → List (String × String)
  | [], k, v => [(k, v)]
  | (k1, v1) :: rest, k, v =>
    if k1 = k then (k1, v) :: rest else (k1, v1) :: dictInsert rest k v

/-- Perform a sequence of dict assignments on an initially empty dict. -/
def dictInsertAll (pairs : List (String × String)) : List (String × String) :=
  pairs.foldl (fun m kv => dictInsert m kv.1 kv.2) []

/-- Dict lookup `m[k]`, as `Option`. -/
def dictLookup : List (String × String) → String → Option String
  | [], _ => none
  | (k1, v1) :: rest, k => if k1 = k then some v1 else dictLookup rest k

/-- The whole `_name_source_map` construction for a given directory
listing: scan, then finalize into the name → source-path dict. -/
def buildMap (secure : PyObj → String) (files : List ScanFile) :
    Except BuildErr (List (String × String)) :=
  match buildGroups secure files with
  | .error e => .error e
  | .ok (gs, _) => .ok (dictInsertAll (finalizePairs gs))

/-- The mutable state of a `CachedCallsMiner` instance that this component
touches: the directory listing the `glob` would produce (with each file's
load behavior) and the memoized `__name_source_map` (`None` before the
first build). -/
structure MinerState : Type where
  files : List ScanFile
  cache : Option (List (String × String))

/-- The `_name_source_map` property (lines 57–116): return the cached map
if present, otherwise build it from the directory listing and cache it.
A build abort propagates and leaves the cache unset. -/
def nameSourceMap (secure : PyObj → String) (st : MinerState) :
    Except BuildErr (List (String × String) × MinerState) :=
  match st.cache with
  | some m => .ok (m, st)
  | none =>
    match buildMap secure st.files with
    | .error e => .error e
    | .ok m => .ok (m, ⟨st.files, some m⟩)

/-- Lexicographic comparison of character lists by code point: exactly the
comparison Python applies to unicode strings. -/
def charListLe : List Char → List Char → Bool
  | [], _ => true
  | _ :: _, [] => false
  | c :: cs, d :: ds =>
    if c.toNat < d.toNat then true
    else if d.toNat < c.toNat then false
    else charListLe cs ds

/-- Lexicographic string comparison by code point. -/
def strLe (a b : String) : Bool :=
  charListLe a.toList b.toList

/-- Insert a string into an already ascending list, keeping it ascending. -/
def insertSorted (x : String) : List String → List String
  | [] => [x]
  | y :: ys => if strLe x y then x :: y :: ys else y :: insertSorted x ys

/-- Ascending lexicographic sort (insertion sort).  Python `sorted` over
strings computes the same function: string order is total, so every
correct sort of the same keys yields the same list. -/
def sortNames (l : List String) : List String :=
  l.foldr insertSorted []

/-- Model of `contname_iter` (lines 43–45): the keys of `_name_source_map`, sorted
lexicographically (Python `sorted` over a dict), together with the state
after the property access. -/
def contnames (secure : PyObj → String) (st : MinerState) :
    Except BuildErr (List String × MinerState) :=
  match nameSourceMap secure st with
  | .error e => .error e
  | .ok (m, st2) => .ok (sortNames (m.map Prod.fst), st2)

/-- How `get_data` can fail: a build abort from the lazy
`_name_source_map` access, the `ContainerNameError` for an unknown name,
or an exception of the reader's own type propagating out of
`__read_cache_file` at fetch time. -/
inductive GetDataErr (E : Type) : Type where
  | buildFailed : BuildErr → GetDataErr E
  | containerNameError : String → GetDataErr E
  | loadFailed : E → GetDataErr E

/-- The `ContainerNameError` message of lines 51–52. -/
def containerNameMsg (name : String) : String :=
  "container \"" ++ name ++ "\" is not available for miner CachedCallsMiner"

/-- Model of `get_data` (lines 47–55): resolve the name in `_name_source_map`
(raising `ContainerNameError` on `KeyError`), re-read the file at the
resolved path, and normalize the payload.  `readCache` models
`__read_cache_file` (returning `call_info` and `call_data['lret']`),
`normalize` models `EveNormalizer().run`. -/
def get_data {E Payload Norm : Type} (secure : PyObj → String)
    (readCache : String → Except E (List PyObj × Payload))
    (normalize : Payload → Norm)
    (st : MinerState) (name : String) :
    Except (GetDataErr E) (Norm × MinerState) :=
  match nameSourceMap secure st with
  | .error e => .error (.buildFailed e)
  | .ok (m, st2) =>
    match dictLookup m name with
    | none => .error (.containerNameError (containerNameMsg name))
    | some fp =>
      match readCache fp with
      | .error e => .error (.loadFailed e)
      | .ok (_, payload) => .ok (normalize payload, st2)

/-- Modelled from the spec (§4.1 steps 1–3): split the record into head and
tail; a sequence head contributes its first element as the service name and
the rest as service args, a bare head is the service name with no args; the
tail's first element is the call name and the remainder the call args. -/
def specDecompose : List PyObj → Option (PyObj × List PyObj × PyObj × List PyObj)
  | [] => none
  | head :: tail =>
    match tail with
    | [] => none
    | callName :: callArgs =>
      match head with
      | .seq [] => none
      | .seq (n :: args) => some (n, args, callName, callArgs)
      | .atom a => some (.atom a, [], callName, callArgs)

/-- Modelled from the spec (§4.1 step 5): compose
`service_name(service_args joined by comma-space)_call_name(call_args)`. -/
def composeKey (svcName : String) (svcArgs : List String)
    (callName : String) (callArgs : List String) : String :=
  svcName ++ "(" ++ String.intercalate ", " svcArgs ++ ")_"
    ++ callName ++ "(" ++ String.intercalate ", " callArgs ++ ")"

/-! ## Dictionary lemmas -/

theorem dictLookup_eq_none_iff (l : List (String × String)) (k : String) :
    dictLookup l k = none ↔ k ∉ l.map Prod.fst := by
  induction l with
  | nil => simp [dictLookup]
  | cons hd tl ih =>
    obtain ⟨k1, v1⟩ := hd
    by_cases h : k1 = k
    · subst h
      simp [dictLookup]
    · simp [dictLookup, h, ih, Ne.symm h]

theorem dictLookup_some_mem {l : List (String × String)} {k v : String}
    (h : dictLookup l k = some v) : (k, v) ∈ l := by
  induction l with
  | nil => simp [dictLookup] at h
  | cons hd tl ih =>
    obtain ⟨k1, v1⟩ := hd
    by_cases hk : k1 = k
    · subst hk
      simp [dictLookup] at h
      subst h
      exact List.mem_cons_self _ _
    · simp [dictLookup, hk] at h
      exact List.mem_cons_of_mem _ (ih h)

theorem dictLookup_of_mem_nodup {l : List (String × String)} {k v : String}
    (hnd : (l.map Prod.fst).Nodup) (h : (k, v) ∈ l) : dictLookup l k = some v := by
  induction l with
  | nil => simp at h
  | cons hd tl ih =>
    obtain ⟨k1, v1⟩ := hd
    simp only [List.map_cons, List.nodup_cons] at hnd
    rcases List.mem_cons.mp h with h1 | h1
    · injection h1 with h1a h1b
      subst h1a h1b
      simp [dictLookup]
    · have hk1 : k1 ≠ k := by
        intro he
        subst he
        exact hnd.1 (List.mem_map.mpr ⟨(k1, v), h1, rfl⟩)
      simp [dictLookup, hk1]
      exact ih hnd.2 h1

theorem dictInsert_of_not_mem {l : List (String × String)} {k : String} (v : String)
    (h : k ∉ l.map Prod.fst) : dictInsert l k v = l ++ [(k, v)] := by
  induction l with
  | nil => rfl
  | cons hd tl ih =>
    obtain ⟨k1, v1⟩ := hd
    simp only [List.map_cons, List.mem_cons] at h
    push_neg at h
    simp [dictInsert, Ne.symm h.1, ih h.2]

theorem mem_fst_dictInsert (l : List (String × String)) (k v x : String) :
    x ∈ (dictInsert l k v).map Prod.fst ↔ x ∈ l.map Prod.fst ∨ x = k := by
  induction l with
  | nil => simp [dictInsert]
  | cons hd tl ih =>
    obtain ⟨k1, v1⟩ := hd
    by_cases h : k1 = k
    · subst h
      simp [dictInsert]
      tauto
    · simp [dictInsert, h, ih]
      tauto

theorem mem_fst_dictInsertAll (pairs : List (String × String)) (x : String) :
    x ∈ (dictInsertAll pairs).map Prod.fst ↔ x ∈ pairs.map Prod.fst := by
  suffices h : ∀ (ps : List (String × String)) (acc : List (String × String)),
      x ∈ (ps.foldl (fun m kv => dictInsert m kv.1 kv.2) acc).map Prod.fst ↔
        x ∈ acc.map Prod.fst ∨ x ∈ ps.map Prod.fst by
    have := h pairs []
    simpa [dictInsertAll] using this
  intro ps
  induction ps with
  | nil => simp
  | cons hd tl ih =>
    intro acc
    simp only [List.foldl_cons, ih, mem_fst_dictInsert, List.map_cons, List.mem_cons]
    tauto

theorem dictInsertAll_of_nodup {pairs : List (String × String)}
    (h : (pairs.map Prod.fst).Nodup) : dictInsertAll pairs = pairs := by
  induction pairs using List.reverseRecOn with
  | nil => rfl
  | append_singleton ps kv ih =>
    simp only [List.map_append, List.map_cons, List.map_nil, List.nodup_append] at h
    obtain ⟨h1, _, h3⟩ := h
    have hk : kv.1 ∉ ps.map Prod.fst := by
      intro hmem
      exact h3 hmem (List.mem_singleton_self _)
    unfold dictInsertAll
    rw [List.foldl_append]
    simp only [List.foldl_cons, List.foldl_nil]
    rw [show List.foldl (fun m kv => dictInsert m kv.1 kv.2) [] ps = dictInsertAll ps from rfl,
      ih h1, dictInsert_of_not_mem _ hk]

/-! ## Finalization lemmas -/

/-- All paths stored in the grouping map, in group order. -/
def allPaths : List (String × List String) → List String
  | [] => []
  | (_, ps) :: rest => ps ++ allPaths rest

theorem mem_allPaths (gs : List (String × List String)) (p : String) :
    p ∈ allPaths gs ↔ ∃ k ps, (k, ps) ∈ gs ∧ p ∈ ps := by
  induction gs with
  | nil => simp [allPaths]
  | cons hd tl ih =>
    obtain ⟨k1, ps1⟩ := hd
    simp only [allPaths, List.mem_append, ih, List.mem_cons]
    constructor
    · rintro (hp | ⟨k, ps, hmem, hp⟩)
      · exact ⟨k1, ps1, Or.inl rfl, hp⟩
      · exact ⟨k, ps, Or.inr hmem, hp⟩
    · rintro ⟨k, ps, hmem | hmem, hp⟩
      · injection hmem with h1 h2
        subst h2
        exact Or.inl hp
      · exact Or.inr ⟨k, ps, hmem, hp⟩

theorem finalizePairs_snd (gs : List (String × List String)) :
    (finalizePairs gs).map Prod.snd = allPaths gs := by
  induction gs with
  | nil => rfl
  | cons hd tl ih =>
    obtain ⟨k, ps⟩ := hd
    by_cases h : 1 < ps.length <;>
      simp [finalizePairs, allPaths, h, ih, List.map_map, Function.comp_def]

theorem mem_finalizePairs (gs : List (String × List String)) (n p : String) :
    (n, p) ∈ finalizePairs gs ↔
      ∃ k ps, (k, ps) ∈ gs ∧ p ∈ ps ∧
        ((ps.length ≤ 1 ∧ n = k) ∨
          (1 < ps.length ∧ n = k ++ "_" ++ stemOf (basename p))) := by
  induction gs with
  | nil => simp [finalizePairs]
  | cons hd tl ih =>
    obtain ⟨k1, ps1⟩ := hd
    by_cases h : 1 < ps1.length
    · simp only [finalizePairs, if_pos h, List.mem_append, List.mem_map, ih, List.mem_cons]
      constructor
      · rintro (⟨q, hq, he⟩ | ⟨k, ps, hmem, hp, hbr⟩)
        · injection he with h1 h2
          subst h1 h2
          exact ⟨k1, ps1, Or.inl rfl, hq, Or.inr ⟨h, rfl⟩⟩
        · exact ⟨k, ps, Or.inr hmem, hp, hbr⟩
      · rintro ⟨k, ps, hmem | hmem, hp, hbr⟩
        · injection hmem with h1 h2
          subst h1 h2
          rcases hbr with ⟨hle, _⟩ | ⟨_, hn⟩
          · omega
          · exact Or.inl ⟨p, hp, by rw [hn]⟩
        · exact Or.inr ⟨k, ps, hmem, hp, hbr⟩
    · simp only [finalizePairs, if_neg h, List.mem_append, List.mem_map, ih, List.mem_cons]
      constructor
      · rintro (⟨q, hq, he⟩ | ⟨k, ps, hmem, hp, hbr⟩)
        · injection he with h1 h2
          subst h1 h2
          exact ⟨k1, ps1, Or.inl rfl, hq, Or.inl ⟨by omega, rfl⟩⟩
        · exact ⟨k, ps, Or.inr hmem, hp, hbr⟩
      · rintro ⟨k, ps, hmem | hmem, hp, hbr⟩
        · injection hmem with h1 h2
          subst h1 h2
          rcases hbr with ⟨_, hn⟩ | ⟨hlt, _⟩
          · exact Or.inl ⟨p, hp, by rw [hn]⟩
          · omega
        · exact Or.inr ⟨k, ps, hmem, hp, hbr⟩

/-! ## Grouping lemmas -/

/-- The path `p` is stored under key `k` in the grouping map. -/
def memGroups (gs : List (String × List String)) (k p : String) : Prop :=
  ∃ ps, (k, ps) ∈ gs ∧ p ∈ ps

/-- Some file of the listing loads successfully, has path `p`, and its
record derives the key `k`. -/
def fileKeyed (secure : PyObj → String) (files : List ScanFile) (k p : String) : Prop :=
  ∃ f info, f ∈ files ∧ f.path = p ∧ f.outcome = .ok info ∧ deriveKey secure info = some k


theorem memGroups_nil (k p : String) : ¬ memGroups [] k p := by
  rintro ⟨ps, hmem, _⟩
  simp at hmem

theorem memGroups_cons (a : String) (b : List String)
    (tl : List (String × List String)) (k p : String) :
    memGroups ((a, b) :: tl) k p ↔ (k = a ∧ p ∈ b) ∨ memGroups tl k p := by
  constructor
  · rintro ⟨ps, hmem, hp⟩
    rcases List.mem_cons.mp hmem with he | he
    · injection he with h1 h2
      exact Or.inl ⟨h1, h2 ▸ hp⟩
    · exact Or.inr ⟨ps, he, hp⟩
  · rintro (⟨h1, h2⟩ | ⟨ps, hmem, hp⟩)
    · exact ⟨b, by rw [h1]; exact List.mem_cons_self _ _, h2⟩
    · exact ⟨ps, List.mem_cons_of_mem _ hmem, hp⟩

theorem addToGroup_cons_eq {k1 k0 : String} (ps1 : List String)
    (tl : List (String × List String)) (p0 : String) (h : k1 = k0) :
    addToGroup ((k1, ps1) :: tl) k0 p0 =
      (k1, if p0 ∈ ps1 then ps1 else ps1 ++ [p0]) :: tl := by
  simp [addToGroup, h]

theorem addToGroup_cons_ne {k1 k0 : String} (ps1 : List String)
    (tl : List (String × List String)) (p0 : String) (h : ¬ k1 = k0) :
    addToGroup ((k1, ps1) :: tl) k0 p0 = (k1, ps1) :: addToGroup tl k0 p0 := by
  simp [addToGroup, h]

theorem assoc_eq_of_nodup {gs : List (String × List String)} {k : String}
    {ps ps2 : List String} (hnd : (gs.map Prod.fst).Nodup)
    (h1 : (k, ps) ∈ gs) (h2 : (k, ps2) ∈ gs) : ps = ps2 := by
  induction gs with
  | nil => simp at h1
  | cons hd tl ih =>
    obtain ⟨k1, q⟩ := hd
    simp only [List.map_cons, List.nodup_cons] at hnd
    rcases List.mem_cons.mp h1 with ha | ha <;> rcases List.mem_cons.mp h2 with hb | hb
    · injection ha with ha1 ha2
      injection hb with hb1 hb2
      rw [ha2, hb2]
    · injection ha with ha1 ha2
      rw [ha1] at hb
      exact absurd (List.mem_map.mpr ⟨(k1, ps2), hb, rfl⟩) hnd.1
    · injection hb with hb1 hb2
      rw [hb1] at ha
      exact absurd (List.mem_map.mpr ⟨(k1, ps), ha, rfl⟩) hnd.1
    · exact ih hnd.2 ha hb

theorem memGroups_addToGroup (gs : List (String × List String)) (k0 p0 k p : String) :
    memGroups (addToGroup gs k0 p0) k p ↔ memGroups gs k p ∨ (k = k0 ∧ p = p0) := by
  induction gs with
  | nil =>
    rw [show addToGroup [] k0 p0 = [(k0, [p0])] from rfl, memGroups_cons]
    simp only [List.mem_singleton]
    constructor
    · rintro (⟨h1, h2⟩ | hm)
      · exact Or.inr ⟨h1, h2⟩
      · exact absurd hm (memGroups_nil _ _)
    · rintro (hm | ⟨h1, h2⟩)
      · exact absurd hm (memGroups_nil _ _)
      · exact Or.inl ⟨h1, h2⟩
  | cons hd tl ih =>
    obtain ⟨k1, ps1⟩ := hd
    by_cases h : k1 = k0
    · rw [addToGroup_cons_eq ps1 tl p0 h, memGroups_cons, memGroups_cons]
      by_cases hp0 : p0 ∈ ps1
      · rw [if_pos hp0]
        constructor
        · tauto
        · rintro ((⟨hk, hp⟩ | hm) | ⟨hk, hp⟩)
          · exact Or.inl ⟨hk, hp⟩
          · exact Or.inr hm
          · rw [hp, hk, h]
            exact Or.inl ⟨rfl, hp0⟩
      · rw [if_neg hp0]
        simp only [List.mem_append, List.mem_singleton]
        constructor
        · rintro (⟨hk, hp | hp⟩ | hm)
          · exact Or.inl (Or.inl ⟨hk, hp⟩)
          · exact Or.inr ⟨hk.trans h, hp⟩
          · exact Or.inl (Or.inr hm)
        · rintro ((⟨hk, hp⟩ | hm) | ⟨hk, hp⟩)
          · exact Or.inl ⟨hk, Or.inl hp⟩
          · exact Or.inr hm
          · exact Or.inl ⟨hk.trans h.symm, Or.inr hp⟩
    · rw [addToGroup_cons_ne ps1 tl p0 h, memGroups_cons, memGroups_cons, ih]
      tauto

theorem mem_fst_addToGroup (gs : List (String × List String)) (k0 p0 x : String) :
    x ∈ (addToGroup gs k0 p0).map Prod.fst ↔ x ∈ gs.map Prod.fst ∨ x = k0 := by
  induction gs with
  | nil => simp [addToGroup]
  | cons hd tl ih =>
    obtain ⟨k1, ps1⟩ := hd
    by_cases h : k1 = k0
    · rw [addToGroup_cons_eq ps1 tl p0 h]
      simp only [List.map_cons, List.mem_cons]
      constructor
      · rintro (hx | hx)
        · exact Or.inl (Or.inl hx)
        · exact Or.inl (Or.inr hx)
      · rintro ((hx | hx) | hx)
        · exact Or.inl hx
        · exact Or.inr hx
        · exact Or.inl (hx.trans h.symm)
    · rw [addToGroup_cons_ne ps1 tl p0 h]
      simp only [List.map_cons, List.mem_cons, ih]
      tauto

theorem nodup_fst_addToGroup {gs : List (String × List String)} {k0 p0 : String}
    (hnd : (gs.map Prod.fst).Nodup) :
    ((addToGroup gs k0 p0).map Prod.fst).Nodup := by
  induction gs with
  | nil => simp [addToGroup]
  | cons hd tl ih =>
    obtain ⟨k1, ps1⟩ := hd
    simp only [List.map_cons, List.nodup_cons] at hnd
    by_cases h : k1 = k0
    · rw [addToGroup_cons_eq ps1 tl p0 h]
      simp only [List.map_cons, List.nodup_cons]
      exact ⟨hnd.1, hnd.2⟩
    · rw [addToGroup_cons_ne ps1 tl p0 h]
      simp only [List.map_cons, List.nodup_cons]
      refine ⟨?_, ih hnd.2⟩
      rw [mem_fst_addToGroup]
      rintro (hx | hx)
      · exact hnd.1 hx
      · exact h hx

theorem ps_nodup_addToGroup {gs : List (String × List String)} {k0 p0 : String}
    (hnd : ∀ k ps, (k, ps) ∈ gs → ps.Nodup) :
    ∀ k ps, (k, ps) ∈ addToGroup gs k0 p0 → ps.Nodup := by
  induction gs with
  | nil =>
    intro k ps hmem
    rw [show addToGroup [] k0 p0 = [(k0, [p0])] from rfl] at hmem
    rcases List.mem_singleton.mp hmem with he
    injection he with h1 h2
    rw [h2]
    exact List.nodup_singleton _
  | cons hd tl ih =>
    obtain ⟨k1, ps1⟩ := hd
    intro k ps hmem
    have h1nd := hnd k1 ps1 (List.mem_cons_self _ _)
    by_cases h : k1 = k0
    · rw [addToGroup_cons_eq ps1 tl p0 h] at hmem
      rcases List.mem_cons.mp hmem with he | he
      · injection he with he1 he2
        rw [he2]
        by_cases hp0 : p0 ∈ ps1
        · rw [if_pos hp0]
          exact h1nd
        · rw [if_neg hp0]
          simp [List.nodup_append, h1nd, hp0, List.disjoint_singleton]
      · exact hnd k ps (List.mem_cons_of_mem _ he)
    · rw [addToGroup_cons_ne ps1 tl p0 h] at hmem
      rcases List.mem_cons.mp hmem with he | he
      · injection he with he1 he2
        rw [he2]
        exact h1nd
      · exact ih (fun k2 ps2 hm => hnd k2 ps2 (List.mem_cons_of_mem _ hm)) k ps he

/-! ## Scan-loop lemmas -/

theorem fileKeyed_nil (secure : PyObj → String) (k p : String) :
    ¬ fileKeyed secure [] k p := by
  rintro ⟨f, info, hmem, _⟩
  simp at hmem

theorem fileKeyed_cons (secure : PyObj → String) (f : ScanFile) (rest : List ScanFile)
    (k p : String) :
    fileKeyed secure (f :: rest) k p ↔
      (∃ info, f.path = p ∧ f.outcome = .ok info ∧ deriveKey secure info = some k) ∨
        fileKeyed secure rest k p := by
  constructor
  · rintro ⟨g, info, hmem, hp, ho, hk⟩
    rcases List.mem_cons.mp hmem with he | he
    · subst he
      exact Or.inl ⟨info, hp, ho, hk⟩
    · exact Or.inr ⟨g, info, he, hp, ho, hk⟩
  · rintro (⟨info, hp, ho, hk⟩ | ⟨g, info, hmem, hp, ho, hk⟩)
    · exact ⟨f, info, List.mem_cons_self _ _, hp, ho, hk⟩
    · exact ⟨g, info, List.mem_cons_of_mem _ hmem, hp, ho, hk⟩

theorem scan_memGroups {secure : PyObj → String} {files : List ScanFile}
    {gs gs2 : List (String × List String)} {ds ds2 : List String}
    (h : scanAux secure files gs ds = .ok (gs2, ds2)) (k p : String) :
    memGroups gs2 k p ↔ memGroups gs k p ∨ fileKeyed secure files k p := by
  induction files generalizing gs ds with
  | nil =>
    simp only [scanAux, Except.ok.injEq, Prod.mk.injEq] at h
    obtain ⟨h1, _⟩ := h
    subst h1
    have := fileKeyed_nil secure k p
    tauto
  | cons f rest ih =>
    obtain ⟨q, outcome⟩ := f
    rw [fileKeyed_cons]
    cases outcome with
    | interrupt => simp [scanAux] at h
    | err =>
      simp only [scanAux] at h
      rw [ih h]
      constructor
      · rintro (hm | hf)
        · exact Or.inl hm
        · exact Or.inr (Or.inr hf)
      · rintro (hm | (⟨info, _, ho, _⟩ | hf))
        · exact Or.inl hm
        · exact absurd ho (by simp)
        · exact Or.inr hf
    | ok info =>
      simp only [scanAux] at h
      cases hk : deriveKey secure info with
      | none =>
        rw [hk] at h
        simp at h
      | some k0 =>
        rw [hk] at h
        simp only at h
        rw [ih h, memGroups_addToGroup]
        constructor
        · rintro ((hm | ⟨hkk, hpp⟩) | hf)
          · exact Or.inl hm
          · refine Or.inr (Or.inl ⟨info, hpp.symm, rfl, ?_⟩)
            rw [hk, hkk]
          · exact Or.inr (Or.inr hf)
        · rintro (hm | (⟨info2, hp2, ho2, hk2⟩ | hf))
          · exact Or.inl (Or.inl hm)
          · refine Or.inl (Or.inr ⟨?_, hp2.symm⟩)
            injection ho2 with hinfo
            rw [← hinfo] at hk2
            rw [hk] at hk2
            injection hk2 with hkk
            exact hkk.symm
          · exact Or.inr hf


theorem scan_nodup_fst {secure : PyObj → String} {files : List ScanFile}
    {gs gs2 : List (String × List String)} {ds ds2 : List String}
    (h : scanAux secure files gs ds = .ok (gs2, ds2))
    (hnd : (gs.map Prod.fst).Nodup) : (gs2.map Prod.fst).Nodup := by
  induction files generalizing gs ds with
  | nil =>
    simp only [scanAux, Except.ok.injEq, Prod.mk.injEq] at h
    obtain ⟨h1, _⟩ := h
    subst h1
    exact hnd
  | cons f rest ih =>
    obtain ⟨q, outcome⟩ := f
    cases outcome with
    | interrupt => simp [scanAux] at h
    | err =>
      simp only [scanAux] at h
      exact ih h hnd
    | ok info =>
      simp only [scanAux] at h
      cases hk : deriveKey secure info with
      | none =>
        rw [hk] at h
        simp at h
      | some k0 =>
        rw [hk] at h
        simp only at h
        exact ih h (nodup_fst_addToGroup hnd)

theorem scan_ps_nodup {secure : PyObj → String} {files : List ScanFile}
    {gs gs2 : List (String × List String)} {ds ds2 : List String}
    (h : scanAux secure files gs ds = .ok (gs2, ds2))
    (hnd : ∀ k ps, (k, ps) ∈ gs → ps.Nodup) :
    ∀ k ps, (k, ps) ∈ gs2 → ps.Nodup := by
  induction files generalizing gs ds with
  | nil =>
    simp only [scanAux, Except.ok.injEq, Prod.mk.injEq] at h
    obtain ⟨h1, _⟩ := h
    subst h1
    exact hnd
  | cons f rest ih =>
    obtain ⟨q, outcome⟩ := f
    cases outcome with
    | interrupt => simp [scanAux] at h
    | err =>
      simp only [scanAux] at h
      exact ih h hnd
    | ok info =>
      simp only [scanAux] at h
      cases hk : deriveKey secure info with
      | none =>
        rw [hk] at h
        simp at h
      | some k0 =>
        rw [hk] at h
        simp only at h
        exact ih h (ps_nodup_addToGroup hnd)

theorem scan_ok_derives {secure : PyObj → String} {files : List ScanFile}
    {gs : List (String × List String)} {ds : List String}
    {r : List (String × List String) × List String}
    (h : scanAux secure files gs ds = .ok r) :
    ∀ f ∈ files, ∀ info, f.outcome = .ok info → ∃ k, deriveKey secure info = some k := by
  induction files generalizing gs ds with
  | nil =>
    intro f hf
    simp at hf
  | cons f rest ih =>
    obtain ⟨q, outcome⟩ := f
    intro g hg info hinfo
    rcases List.mem_cons.mp hg with he | he
    · subst he
      cases outcome with
      | interrupt => simp [scanAux] at h
      | err => simp at hinfo
      | ok info2 =>
        simp only [scanAux] at h
        cases hk : deriveKey secure info2 with
        | none =>
          rw [hk] at h
          simp at h
        | some k0 =>
          injection hinfo with he2
          rw [← he2]
          exact ⟨k0, hk⟩
    · cases outcome with
      | interrupt => simp [scanAux] at h
      | err =>
        simp only [scanAux] at h
        exact ih h g he info hinfo
      | ok info2 =>
        simp only [scanAux] at h
        cases hk : deriveKey secure info2 with
        | none =>
          rw [hk] at h
          simp at h
        | some k0 =>
          rw [hk] at h
          simp only at h
          exact ih h g he info hinfo

/-- Appending to the diagnostics accumulator commutes with the scan. -/
theorem scan_prepend {secure : PyObj → String} (files : List ScanFile)
    (gs : List (String × List String)) (d0 ds : List String) :
    scanAux secure files gs (d0 ++ ds) =
      Except.map (fun r => (r.1, d0 ++ r.2)) (scanAux secure files gs ds) := by
  induction files generalizing gs ds with
  | nil => simp [scanAux, Except.map]
  | cons f rest ih =>
    obtain ⟨q, outcome⟩ := f
    cases outcome with
    | interrupt => simp [scanAux, Except.map]
    | err =>
      simp only [scanAux]
      rw [List.append_assoc]
      exact ih gs (ds ++ [diagMsg q])
    | ok info =>
      simp only [scanAux]
      cases hk : deriveKey secure info with
      | none => simp [Except.map]
      | some k0 =>
        simp only
        exact ih (addToGroup gs k0 q) ds


/-! ## Packaged build invariants -/

theorem buildGroups_fst_nodup {secure : PyObj → String} {files : List ScanFile}
    {gs : List (String × List String)} {ds : List String}
    (h : buildGroups secure files = .ok (gs, ds)) : (gs.map Prod.fst).Nodup :=
  scan_nodup_fst h (by simp)

theorem buildGroups_ps_nodup {secure : PyObj → String} {files : List ScanFile}
    {gs : List (String × List String)} {ds : List String}
    (h : buildGroups secure files = .ok (gs, ds)) :
    ∀ k ps, (k, ps) ∈ gs → ps.Nodup :=
  scan_ps_nodup h (by simp)

theorem buildGroups_memGroups {secure : PyObj → String} {files : List ScanFile}
    {gs : List (String × List String)} {ds : List String}
    (h : buildGroups secure files = .ok (gs, ds)) (k p : String) :
    memGroups gs k p ↔ fileKeyed secure files k p := by
  have h1 := scan_memGroups h k p
  have h2 := memGroups_nil k p
  tauto

theorem group_mem_iff {secure : PyObj → String} {files : List ScanFile}
    {gs : List (String × List String)} {ds : List String}
    (h : buildGroups secure files = .ok (gs, ds)) {k : String} {ps : List String}
    (hmem : (k, ps) ∈ gs) :
    ∀ p, p ∈ ps ↔ fileKeyed secure files k p := by
  intro p
  constructor
  · intro hp
    exact (buildGroups_memGroups h k p).mp ⟨ps, hmem, hp⟩
  · intro hf
    obtain ⟨ps2, hm2, hp2⟩ := (buildGroups_memGroups h k p).mpr hf
    rw [assoc_eq_of_nodup (buildGroups_fst_nodup h) hmem hm2]
    exact hp2

theorem length_eq_of_nodup_of_mem_iff {l1 l2 : List String}
    (h1 : l1.Nodup) (h2 : l2.Nodup) (hm : ∀ x, x ∈ l1 ↔ x ∈ l2) :
    l1.length = l2.length := by
  rw [← List.toFinset_card_of_nodup h1, ← List.toFinset_card_of_nodup h2]
  congr 1
  ext x
  simp only [List.mem_toFinset]
  exact hm x

/-- With pairwise-distinct file paths, a path determines its derived key. -/
theorem key_unique {secure : PyObj → String} {files : List ScanFile}
    (hpaths : (files.map ScanFile.path).Nodup) {k k2 p : String}
    (h1 : fileKeyed secure files k p) (h2 : fileKeyed secure files k2 p) : k = k2 := by
  obtain ⟨f1, i1, hm1, hp1, ho1, hk1⟩ := h1
  obtain ⟨f2, i2, hm2, hp2, ho2, hk2⟩ := h2
  have hf : f1 = f2 := List.inj_on_of_nodup_map hpaths hm1 hm2 (hp1.trans hp2.symm)
  subst hf
  rw [ho1] at ho2
  injection ho2 with hi
  rw [← hi] at hk2
  rw [hk1] at hk2
  injection hk2

theorem allPaths_nodup {gs : List (String × List String)}
    (hnd : (gs.map Prod.fst).Nodup)
    (hps : ∀ k ps, (k, ps) ∈ gs → ps.Nodup)
    (hkey : ∀ k ps k2 ps2 p, (k, ps) ∈ gs → (k2, ps2) ∈ gs → p ∈ ps → p ∈ ps2 → k = k2) :
    (allPaths gs).Nodup := by
  induction gs with
  | nil => simp [allPaths]
  | cons hd tl ih =>
    obtain ⟨k1, ps1⟩ := hd
    simp only [allPaths, List.nodup_append]
    simp only [List.map_cons, List.nodup_cons] at hnd
    refine ⟨hps k1 ps1 (List.mem_cons_self _ _),
      ih hnd.2 (fun k ps hm => hps k ps (List.mem_cons_of_mem _ hm))
        (fun k ps k2 ps2 p hm hm2 hp hp2 =>
          hkey k ps k2 ps2 p (List.mem_cons_of_mem _ hm) (List.mem_cons_of_mem _ hm2) hp hp2),
      ?_⟩
    intro p hp hp2
    obtain ⟨k2, ps2, hm2, hpp2⟩ := (mem_allPaths tl p).mp hp2
    have hk := hkey k1 ps1 k2 ps2 p (List.mem_cons_self _ _) (List.mem_cons_of_mem _ hm2) hp hpp2
    apply hnd.1
    rw [hk]
    exact List.mem_map.mpr ⟨(k2, ps2), hm2, rfl⟩


/-! ## Error-handling lemmas -/

/-- A file either fails to load outright or loads into a record whose key
derivation succeeds. -/
def WellBehaved (secure : PyObj → String) (f : ScanFile) : Prop :=
  f.outcome = .err ∨ ∃ info k, f.outcome = .ok info ∧ deriveKey secure info = some k

theorem scan_skip {secure : PyObj → String} :
    ∀ (files : List ScanFile) (gs : List (String × List String)),
      (∀ f ∈ files, WellBehaved secure f) →
      ∃ gs2,
        scanAux secure files gs [] =
          .ok (gs2, (files.filter (fun f => f.outcome.isErr)).map (fun f => diagMsg f.path)) ∧
        scanAux secure (files.filter (fun f => ! f.outcome.isErr)) gs [] = .ok (gs2, []) := by
  intro files
  induction files with
  | nil =>
    intro gs _
    exact ⟨gs, rfl, rfl⟩
  | cons f rest ih =>
    intro gs hwb
    obtain ⟨q, outcome⟩ := f
    have hhd := hwb _ (List.mem_cons_self _ _)
    have htl : ∀ g ∈ rest, WellBehaved secure g :=
      fun g hg => hwb g (List.mem_cons_of_mem _ hg)
    cases outcome with
    | interrupt =>
      rcases hhd with hc | ⟨info, k, hc, _⟩ <;> simp [ScanFile.outcome] at hc
    | err =>
      obtain ⟨gs2, h1, h2⟩ := ih gs htl
      have hpre := @scan_prepend secure rest gs [diagMsg q] []
      rw [List.append_nil] at hpre
      refine ⟨gs2, ?_, ?_⟩
      · have hfil : List.filter (fun f => f.outcome.isErr)
            ((⟨q, LoadOutcome.err⟩ : ScanFile) :: rest)
            = ⟨q, LoadOutcome.err⟩ :: List.filter (fun f => f.outcome.isErr) rest := by
          simp [List.filter_cons, LoadOutcome.isErr]
        rw [hfil]
        show scanAux secure rest gs ([] ++ [diagMsg q]) = _
        rw [List.nil_append, hpre, h1]
        rfl
      · have hfil : List.filter (fun f => ! f.outcome.isErr)
            ((⟨q, LoadOutcome.err⟩ : ScanFile) :: rest)
            = List.filter (fun f => ! f.outcome.isErr) rest := by
          simp [List.filter_cons, LoadOutcome.isErr]
        rw [hfil]
        exact h2
    | ok info =>
      rcases hhd with hc | ⟨info2, k, hc, hk⟩
      · simp [ScanFile.outcome] at hc
      · injection hc with hinfo
        rw [← hinfo] at hk
        obtain ⟨gs2, h1, h2⟩ := ih (addToGroup gs k q) htl
        refine ⟨gs2, ?_, ?_⟩
        · have hfil : List.filter (fun f => f.outcome.isErr)
              ((⟨q, LoadOutcome.ok info⟩ : ScanFile) :: rest)
              = List.filter (fun f => f.outcome.isErr) rest := by
            simp [List.filter_cons, LoadOutcome.isErr]
          rw [hfil]
          simp only [scanAux, hk]
          exact h1
        · have hfil : List.filter (fun f => ! f.outcome.isErr)
              ((⟨q, LoadOutcome.ok info⟩ : ScanFile) :: rest)
              = ⟨q, LoadOutcome.ok info⟩ :: List.filter (fun f => ! f.outcome.isErr) rest := by
            simp [List.filter_cons, LoadOutcome.isErr]
          rw [hfil]
          simp only [scanAux, hk]
          exact h2

theorem scan_interrupt {secure : PyObj → String} :
    ∀ (pre : List ScanFile) (gs : List (String × List String)) (ds : List String),
      (∀ g ∈ pre, WellBehaved secure g) →
      ∀ (f : ScanFile) (post : List ScanFile), f.outcome = .interrupt →
        scanAux secure (pre ++ f :: post) gs ds = .error .interrupted := by
  intro pre
  induction pre with
  | nil =>
    intro gs ds _ f post hint
    obtain ⟨q, outcome⟩ := f
    simp only [ScanFile.outcome] at hint
    subst hint
    simp [scanAux]
  | cons g pre ih =>
    intro gs ds hwb f post hint
    obtain ⟨q, outcome⟩ := g
    have hhd := hwb _ (List.mem_cons_self _ _)
    have htl : ∀ g2 ∈ pre, WellBehaved secure g2 :=
      fun g2 hg => hwb g2 (List.mem_cons_of_mem _ hg)
    cases outcome with
    | interrupt =>
      rcases hhd with hc | ⟨info, k, hc, _⟩ <;> simp [ScanFile.outcome] at hc
    | err =>
      simp only [List.cons_append, scanAux]
      exact ih gs (ds ++ [diagMsg q]) htl f post hint
    | ok info =>
      rcases hhd with hc | ⟨info2, k, hc, hk⟩
      · simp [ScanFile.outcome] at hc
      · injection hc with hinfo
        rw [← hinfo] at hk
        simp only [List.cons_append, scanAux, hk]
        exact ih (addToGroup gs k q) ds htl f post hint

theorem scan_decomp {secure : PyObj → String} :
    ∀ (pre : List ScanFile) (gs : List (String × List String)) (ds : List String),
      (∀ g ∈ pre, WellBehaved secure g) →
      ∀ (f : ScanFile) (post : List ScanFile) (info : List PyObj),
        f.outcome = .ok info → deriveKey secure info = none →
        scanAux secure (pre ++ f :: post) gs ds = .error (.decompFailure f.path) := by
  intro pre
  induction pre with
  | nil =>
    intro gs ds _ f post info hok hbad
    obtain ⟨q, outcome⟩ := f
    simp only [ScanFile.outcome] at hok
    subst hok
    simp [scanAux, hbad, ScanFile.path]
  | cons g pre ih =>
    intro gs ds hwb f post info hok hbad
    obtain ⟨q, outcome⟩ := g
    have hhd := hwb _ (List.mem_cons_self _ _)
    have htl : ∀ g2 ∈ pre, WellBehaved secure g2 :=
      fun g2 hg => hwb g2 (List.mem_cons_of_mem _ hg)
    cases outcome with
    | interrupt =>
      rcases hhd with hc | ⟨info2, k, hc, _⟩ <;> simp [ScanFile.outcome] at hc
    | err =>
      simp only [List.cons_append, scanAux]
      exact ih gs (ds ++ [diagMsg q]) htl f post info hok hbad
    | ok info2 =>
      rcases hhd with hc | ⟨info3, k, hc, hk⟩
      · simp [ScanFile.outcome] at hc
      · injection hc with hinfo
        rw [← hinfo] at hk
        simp only [List.cons_append, scanAux, hk]
        exact ih (addToGroup gs k q) ds htl f post info hok hbad


/-! ## Permutation transfer -/

theorem fileKeyed_perm {secure : PyObj → String} {files1 files2 : List ScanFile}
    (hperm : files1.Perm files2) (k p : String) :
    fileKeyed secure files1 k p ↔ fileKeyed secure files2 k p := by
  constructor <;> rintro ⟨f, info, hf, hp, ho, hk⟩
  · exact ⟨f, info, hperm.mem_iff.mp hf, hp, ho, hk⟩
  · exact ⟨f, info, hperm.mem_iff.mpr hf, hp, ho, hk⟩

theorem finalize_mem_transfer {secure : PyObj → String} {files1 files2 : List ScanFile}
    {gs1 gs2 : List (String × List String)} {ds1 ds2 : List String}
    (hperm : files1.Perm files2)
    (h1 : buildGroups secure files1 = .ok (gs1, ds1))
    (h2 : buildGroups secure files2 = .ok (gs2, ds2)) :
    ∀ n p, (n, p) ∈ finalizePairs gs1 → (n, p) ∈ finalizePairs gs2 := by
  intro n p hmem
  rw [mem_finalizePairs] at hmem
  obtain ⟨k, ps1, hm1, hp1, hbr⟩ := hmem
  have hfk : fileKeyed secure files1 k p := (group_mem_iff h1 hm1 p).mp hp1
  have hfk2 : fileKeyed secure files2 k p := (fileKeyed_perm hperm k p).mp hfk
  obtain ⟨ps2, hm2, hp2⟩ := (buildGroups_memGroups h2 k p).mpr hfk2
  have hlen : ps1.length = ps2.length := by
    apply length_eq_of_nodup_of_mem_iff
      (buildGroups_ps_nodup h1 k ps1 hm1) (buildGroups_ps_nodup h2 k ps2 hm2)
    intro x
    rw [group_mem_iff h1 hm1 x, group_mem_iff h2 hm2 x]
    exact fileKeyed_perm hperm k x
  rw [mem_finalizePairs]
  refine ⟨k, ps2, hm2, hp2, ?_⟩
  rw [← hlen]
  exact hbr


/-! ## Concrete instances used by witnesses and counterexamples -/

/-- A concrete safe-name transform: atoms render as their label, sequences
as a placeholder (the transform is opaque in the source, so any pure
function is a legitimate instance). -/
def chosenSecure : PyObj → String
  | .atom s => s
  | .seq _ => "?"

/-- The spec §8 scenario record: `(("svcX", 1), "callY", "z")`. -/
def specRec : List PyObj := [.seq [.atom "svcX", .atom "1"], .atom "callY", .atom "z"]

/-- A second record with a distinct derived key. -/
def otherRec : List PyObj := [.atom "t", .atom "u"]

/-! ## Claim theorems -/

/-- C3: for every raw record, the Derived Key splits the record into
service name, service args, call name and call args (sequence head versus
bare head), secures every component, and composes
`service(args)_call(args)`; the key the code computes agrees with the
spec-described decomposition-and-composition on every decomposable
record. -/
theorem C3_derived_key_formula (secure : PyObj → String) (rec : List PyObj)
    (sn : PyObj) (sa : List PyObj) (cn : PyObj) (ca : List PyObj)
    (h : specDecompose rec = some (sn, sa, cn, ca)) :
    deriveKey secure rec =
      some (composeKey (secure sn) (sa.map secure) (secure cn) (ca.map secure)) := by
  match rec with
  | [] => simp [specDecompose] at h
  | head :: tail =>
    match tail with
    | [] => simp [specDecompose] at h
    | callName :: callArgs =>
      match head with
      | .seq [] => simp [specDecompose] at h
      | .seq (n :: args) =>
        simp only [specDecompose, Option.some.injEq, Prod.mk.injEq] at h
        obtain ⟨rfl, rfl, rfl, rfl⟩ := h
        rfl
      | .atom a =>
        simp only [specDecompose, Option.some.injEq, Prod.mk.injEq] at h
        obtain ⟨rfl, rfl, rfl, rfl⟩ := h
        rfl

/-- Witness for C3 at the spec §8 record. -/
theorem C3_witness :
    specDecompose specRec
      = some (.atom "svcX", [.atom "1"], .atom "callY", [.atom "z"]) ∧
    deriveKey chosenSecure specRec = some "svcX(1)_callY(z)" := by
  refine ⟨rfl, ?_⟩
  rw [C3_derived_key_formula chosenSecure specRec (.atom "svcX") [.atom "1"]
    (.atom "callY") [.atom "z"] rfl]
  rfl

/-- C4: any file whose load raises an ordinary error is diagnosed and
skipped, and the scan continues: the build succeeds, its diagnostics are
exactly one skipped-file notice per failing file, and both the grouping
and the final index coincide with those of the loadable files alone. -/
theorem C4_failed_loads_skipped (secure : PyObj → String) (files : List ScanFile)
    (hwb : ∀ f ∈ files, WellBehaved secure f) :
    ∃ gs,
      buildGroups secure files =
        .ok (gs, (files.filter (fun f => f.outcome.isErr)).map (fun f => diagMsg f.path)) ∧
      buildGroups secure (files.filter (fun f => ! f.outcome.isErr)) = .ok (gs, []) ∧
      buildMap secure files = .ok (dictInsertAll (finalizePairs gs)) ∧
      buildMap secure (files.filter (fun f => ! f.outcome.isErr))
        = .ok (dictInsertAll (finalizePairs gs)) := by
  obtain ⟨gs, h1, h2⟩ := scan_skip files [] hwb
  refine ⟨gs, h1, h2, ?_, ?_⟩
  · unfold buildMap buildGroups
    rw [h1]
  · unfold buildMap buildGroups
    rw [h2]

/-- Witness for C4: one corrupt file among one loadable file. -/
theorem C4_witness :
    buildGroups chosenSecure [⟨"d/bad.cache", .err⟩, ⟨"d/a.cache", .ok specRec⟩]
      = .ok ([("svcX(1)_callY(z)", ["d/a.cache"])],
          ["  unable to load cache file bad.cache"]) ∧
    buildGroups chosenSecure [⟨"d/a.cache", .ok specRec⟩]
      = .ok ([("svcX(1)_callY(z)", ["d/a.cache"])], []) ∧
    buildMap chosenSecure [⟨"d/bad.cache", .err⟩, ⟨"d/a.cache", .ok specRec⟩]
      = .ok [("svcX(1)_callY(z)", "d/a.cache")] := by
  have hwb : ∀ f ∈ [(⟨"d/bad.cache", .err⟩ : ScanFile), ⟨"d/a.cache", .ok specRec⟩],
      WellBehaved chosenSecure f := by
    intro f hf
    rcases List.mem_cons.mp hf with rfl | hf
    · exact Or.inl rfl
    · rcases List.mem_cons.mp hf with rfl | hf
      · exact Or.inr ⟨specRec, "svcX(1)_callY(z)", rfl, rfl⟩
      · simp at hf
  obtain ⟨gs, h1, h2, h3, _⟩ := C4_failed_loads_skipped chosenSecure _ hwb
  have hev : buildGroups chosenSecure [⟨"d/bad.cache", .err⟩, ⟨"d/a.cache", .ok specRec⟩]
      = .ok ([("svcX(1)_callY(z)", ["d/a.cache"])],
          ["  unable to load cache file bad.cache"]) := rfl
  rw [hev] at h1
  injection h1 with h1
  injection h1 with hgs hds
  subst hgs
  refine ⟨hev, ?_, ?_⟩
  · have hfil : List.filter (fun f => ! f.outcome.isErr)
        [(⟨"d/bad.cache", .err⟩ : ScanFile), ⟨"d/a.cache", .ok specRec⟩]
        = [⟨"d/a.cache", .ok specRec⟩] := rfl
    rw [← hfil]
    exact h2
  · rw [h3]
    rfl

/-- C5: the index is built at most once per instance: the first
`_name_source_map` access on an unbuilt state scans and caches, every
later access returns the cached map unchanged whatever the directory now
contains, and `contname_iter` run twice returns identical sorted
sequences. -/
theorem C5_lazy_build_once (secure : PyObj → String) (files : List ScanFile)
    (m : List (String × String)) (h : buildMap secure files = .ok m) :
    nameSourceMap secure ⟨files, none⟩ = .ok (m, ⟨files, some m⟩) ∧
    (∀ files2, nameSourceMap secure ⟨files2, some m⟩ = .ok (m, ⟨files2, some m⟩)) ∧
    (∀ ns st2, contnames secure ⟨files, none⟩ = .ok (ns, st2) →
      contnames secure st2 = .ok (ns, st2)) := by
  have h1 : nameSourceMap secure ⟨files, none⟩ = .ok (m, ⟨files, some m⟩) := by
    simp [nameSourceMap, h]
  refine ⟨h1, fun files2 => rfl, ?_⟩
  intro ns st2 hc
  unfold contnames at hc
  rw [h1] at hc
  simp only [Except.ok.injEq, Prod.mk.injEq] at hc
  obtain ⟨hns, hst⟩ := hc
  subst hns
  subst hst
  rfl

/-- Witness for C5 on a two-file directory. -/
theorem C5_witness :
    nameSourceMap chosenSecure ⟨[⟨"d/b.cache", .ok otherRec⟩, ⟨"d/a.cache", .ok specRec⟩], none⟩
      = .ok ([("t()_u()", "d/b.cache"), ("svcX(1)_callY(z)", "d/a.cache")],
          ⟨[⟨"d/b.cache", .ok otherRec⟩, ⟨"d/a.cache", .ok specRec⟩],
            some [("t()_u()", "d/b.cache"), ("svcX(1)_callY(z)", "d/a.cache")]⟩) ∧
    nameSourceMap chosenSecure
        ⟨[], some [("t()_u()", "d/b.cache"), ("svcX(1)_callY(z)", "d/a.cache")]⟩
      = .ok ([("t()_u()", "d/b.cache"), ("svcX(1)_callY(z)", "d/a.cache")],
          ⟨[], some [("t()_u()", "d/b.cache"), ("svcX(1)_callY(z)", "d/a.cache")]⟩) ∧
    contnames chosenSecure
        ⟨[⟨"d/b.cache", .ok otherRec⟩, ⟨"d/a.cache", .ok specRec⟩],
          some [("t()_u()", "d/b.cache"), ("svcX(1)_callY(z)", "d/a.cache")]⟩
      = .ok (["svcX(1)_callY(z)", "t()_u()"],
          ⟨[⟨"d/b.cache", .ok otherRec⟩, ⟨"d/a.cache", .ok specRec⟩],
            some [("t()_u()", "d/b.cache"), ("svcX(1)_callY(z)", "d/a.cache")]⟩) := by
  have h := C5_lazy_build_once chosenSecure
    [⟨"d/b.cache", .ok otherRec⟩, ⟨"d/a.cache", .ok specRec⟩]
    [("t()_u()", "d/b.cache"), ("svcX(1)_callY(z)", "d/a.cache")] rfl
  exact ⟨h.1, h.2.1 [], h.2.2 ["svcX(1)_callY(z)", "t()_u()"] _ rfl⟩

/-- C7: fetching a name absent from the built index raises the
`ContainerNameError` with the source's message, consults neither the
filesystem reader nor the normalizer, and leaves the cached index and
state unchanged. -/
theorem C7_unavailable_name {E Payload Norm : Type} (secure : PyObj → String)
    (read1 read2 : String → Except E (List PyObj × Payload))
    (norm1 norm2 : Payload → Norm) (st : MinerState) (m : List (String × String))
    (name : String) (hcache : st.cache = some m)
    (habsent : dictLookup m name = none) :
    get_data secure read1 norm1 st name
      = .error (.containerNameError (containerNameMsg name)) ∧
    get_data secure read1 norm1 st name = get_data secure read2 norm2 st name ∧
    nameSourceMap secure st = .ok (m, st) := by
  obtain ⟨fs, c⟩ := st
  simp only at hcache
  subst hcache
  refine ⟨?_, ?_, rfl⟩
  · simp [get_data, nameSourceMap, habsent]
  · simp [get_data, nameSourceMap, habsent]

/-- Witness for C7: a lookup of a missing name against a built index,
under two different readers and normalizers. -/
theorem C7_witness :
    get_data chosenSecure
        (fun _ => (Except.ok ([], 0) : Except String (List PyObj × Nat))) (fun n => n)
        ⟨[], some [("a", "d/a.cache")]⟩ "zzz"
      = .error (.containerNameError (containerNameMsg "zzz")) ∧
    get_data chosenSecure
        (fun _ => (Except.ok ([], 0) : Except String (List PyObj × Nat))) (fun n => n)
        ⟨[], some [("a", "d/a.cache")]⟩ "zzz"
      = get_data chosenSecure
        (fun _ => (Except.error "io failure" : Except String (List PyObj × Nat)))
        (fun n => n + 1) ⟨[], some [("a", "d/a.cache")]⟩ "zzz" ∧
    nameSourceMap chosenSecure ⟨[], some [("a", "d/a.cache")]⟩
      = .ok ([("a", "d/a.cache")], ⟨[], some [("a", "d/a.cache")]⟩) :=
  C7_unavailable_name chosenSecure
    (fun _ => (Except.ok ([], 0) : Except String (List PyObj × Nat)))
    (fun _ => (Except.error "io failure" : Except String (List PyObj × Nat)))
    (fun n => n) (fun n => n + 1)
    ⟨[], some [("a", "d/a.cache")]⟩ [("a", "d/a.cache")] "zzz" rfl rfl

/-- C8: a `KeyboardInterrupt` raised while loading a file during the scan
propagates immediately out of the build; it is never treated as a
skippable per-file failure. -/
theorem C8_interrupt_propagates (secure : PyObj → String)
    (pre post : List ScanFile) (f : ScanFile)
    (hwb : ∀ g ∈ pre, WellBehaved secure g)
    (hint : f.outcome = .interrupt) :
    buildGroups secure (pre ++ f :: post) = .error .interrupted :=
  scan_interrupt pre [] [] hwb f post hint

/-- Witness for C8: an interrupt after a skipped corrupt file, with a
loadable file still pending. -/
theorem C8_witness :
    buildGroups chosenSecure
        [⟨"d/bad.cache", .err⟩, ⟨"d/k.cache", .interrupt⟩, ⟨"d/a.cache", .ok specRec⟩]
      = .error .interrupted := by
  have h := C8_interrupt_propagates chosenSecure [⟨"d/bad.cache", .err⟩]
    [⟨"d/a.cache", .ok specRec⟩] ⟨"d/k.cache", .interrupt⟩
    (by
      intro g hg
      rcases List.mem_cons.mp hg with rfl | hg
      · exact Or.inl rfl
      · simp at hg)
    rfl
  exact h

/-- C9: the per-file guard covers only the read-and-deserialize step; a
file that loads but whose record cannot be decomposed (empty record,
headless sequence, missing call name) raises outside the guard and the
error escapes the build instead of the file being skipped. -/
theorem C9_decomposition_error_escapes (secure : PyObj → String)
    (pre post : List ScanFile) (f : ScanFile) (info : List PyObj)
    (hwb : ∀ g ∈ pre, WellBehaved secure g)
    (hok : f.outcome = .ok info) (hbad : deriveKey secure info = none) :
    buildGroups secure (pre ++ f :: post) = .error (.decompFailure f.path) :=
  scan_decomp pre [] [] hwb f post info hok hbad

/-- Witness for C9: an empty record (deserializes to `()`), surrounded by
loadable files, aborts the whole build. -/
theorem C9_witness :
    buildGroups chosenSecure
        [⟨"d/bad.cache", .err⟩, ⟨"d/empty.cache", .ok []⟩, ⟨"d/a.cache", .ok specRec⟩]
      = .error (.decompFailure "d/empty.cache") := by
  have h := C9_decomposition_error_escapes chosenSecure [⟨"d/bad.cache", .err⟩]
    [⟨"d/a.cache", .ok specRec⟩] ⟨"d/empty.cache", .ok []⟩ []
    (by
      intro g hg
      rcases List.mem_cons.mp hg with rfl | hg
      · exact Or.inl rfl
      · simp at hg)
    rfl rfl
  exact h

/-- C10: for a name present in the index, a failure of the fetch-time
reload propagates to the caller as-is: it is neither caught, nor skipped,
nor converted into the unavailable-name error. -/
theorem C10_fetch_load_error_propagates {E Payload Norm : Type}
    (secure : PyObj → String) (read : String → Except E (List PyObj × Payload))
    (norm : Payload → Norm) (st : MinerState) (m : List (String × String))
    (name fp : String) (e : E) (hcache : st.cache = some m)
    (hname : dictLookup m name = some fp) (hread : read fp = .error e) :
    get_data secure read norm st name = .error (.loadFailed e) := by
  obtain ⟨fs, c⟩ := st
  simp only at hcache
  subst hcache
  simp [get_data, nameSourceMap, hname, hread]

/-- Witness for C10: a failing reader surfaces its own error through
`get_data`. -/
theorem C10_witness :
    get_data chosenSecure
        (fun _ => (Except.error "marshal failure" : Except String (List PyObj × Nat)))
        (fun n => n) ⟨[], some [("a", "d/a.cache")]⟩ "a"
      = .error (.loadFailed "marshal failure") :=
  C10_fetch_load_error_propagates chosenSecure
    (fun _ => (Except.error "marshal failure" : Except String (List PyObj × Nat)))
    (fun n => n) ⟨[], some [("a", "d/a.cache")]⟩ [("a", "d/a.cache")]
    "a" "d/a.cache" "marshal failure" rfl rfl rfl


/-! Files exhibiting cross-group name coincidences: a collision suffix can
reproduce another group's bare key, because a derived key may itself end in
`_<text>` and a filename may contain parentheses. -/

/-- Loads to `("s", "c()_x")`: derived key `s()_c()_x()`. -/
def fileP : ScanFile := ⟨"d/p.cache", .ok [.atom "s", .atom "c()_x"]⟩

/-- Loads to `("s", "c()_x")`: derived key `s()_c()_x()`. -/
def fileQ : ScanFile := ⟨"d/q.cache", .ok [.atom "s", .atom "c()_x"]⟩

/-- Loads to `("s", "c")` from file `x().cache`: derived key `s()_c()`,
collision suffix `x()`. -/
def fileXParen : ScanFile := ⟨"d/x().cache", .ok [.atom "s", .atom "c"]⟩

/-- Loads to `("s", "c")`: derived key `s()_c()`. -/
def fileY : ScanFile := ⟨"d/y.cache", .ok [.atom "s", .atom "c"]⟩

/-- Loads to `("s", "c")`: derived key `s()_c()`. -/
def fileX : ScanFile := ⟨"d/x.cache", .ok [.atom "s", .atom "c"]⟩

/-- Loads to `("s", "c")` from file `c().cache`. -/
def fileCParen : ScanFile := ⟨"d/c().cache", .ok [.atom "s", .atom "c"]⟩

/-- Loads to `("s", "c()_c")`: derived key `s()_c()_c()`, which equals the
collision-suffixed name of `fileCParen` under key `s()_c()`. -/
def fileZ : ScanFile := ⟨"d/z.cache", .ok [.atom "s", .atom "c()_c"]⟩

/-- C1 (amended): during finalization a singleton Derived Key group yields
one entry named the bare key mapping to its path, and a collision group
yields one entry per path named `key_stem`; additionally the bare key of a
collision group names no entry — provided the finalized names are pairwise
distinct and no collision group's bare key reappears among the finalized
names (without that proviso the claim fails; see the counterexample). -/
theorem C1_collision_resolution (secure : PyObj → String) (files : List ScanFile)
    (gs : List (String × List String)) (ds : List String) (K : String) (ps : List String)
    (_hscan : buildGroups secure files = .ok (gs, ds))
    (hnames : (finalNames gs).Nodup)
    (hbare : ∀ K2 ∈ (gs.filter (fun g => 1 < g.2.length)).map Prod.fst, K2 ∉ finalNames gs)
    (hmem : (K, ps) ∈ gs) :
    (∀ p, ps = [p] → dictLookup (dictInsertAll (finalizePairs gs)) K = some p) ∧
    (1 < ps.length →
      (∀ p ∈ ps, dictLookup (dictInsertAll (finalizePairs gs))
          (K ++ "_" ++ stemOf (basename p)) = some p) ∧
      dictLookup (dictInsertAll (finalizePairs gs)) K = none) := by
  have hall : dictInsertAll (finalizePairs gs) = finalizePairs gs :=
    dictInsertAll_of_nodup hnames
  constructor
  · intro p hps
    subst hps
    have hmemf : (K, p) ∈ finalizePairs gs := by
      rw [mem_finalizePairs]
      exact ⟨K, [p], hmem, List.mem_singleton_self _, Or.inl ⟨by simp, rfl⟩⟩
    rw [hall]
    exact dictLookup_of_mem_nodup hnames hmemf
  · intro hlen
    constructor
    · intro p hp
      have hmemf : (K ++ "_" ++ stemOf (basename p), p) ∈ finalizePairs gs := by
        rw [mem_finalizePairs]
        exact ⟨K, ps, hmem, hp, Or.inr ⟨hlen, rfl⟩⟩
      rw [hall]
      exact dictLookup_of_mem_nodup hnames hmemf
    · have hnot : K ∉ finalNames gs := by
        apply hbare
        exact List.mem_map.mpr ⟨(K, ps), List.mem_filter.mpr ⟨hmem, decide_eq_true hlen⟩, rfl⟩
      rw [hall, dictLookup_eq_none_iff]
      exact hnot

/-- Counterexample to C1 as stated: `s()_c()_x()` is a Derived Key with two
associated paths, yet the finalized index contains an entry named exactly
that bare key — produced as the collision-suffixed name of `x().cache`
under the different key `s()_c()`. -/
theorem C1_counterexample :
    buildGroups chosenSecure [fileP, fileQ, fileXParen, fileY]
      = .ok ([("s()_c()_x()", ["d/p.cache", "d/q.cache"]),
              ("s()_c()", ["d/x().cache", "d/y.cache"])], []) ∧
    dictLookup (dictInsertAll (finalizePairs
        [("s()_c()_x()", ["d/p.cache", "d/q.cache"]),
         ("s()_c()", ["d/x().cache", "d/y.cache"])])) "s()_c()_x()"
      = some "d/x().cache" :=
  ⟨rfl, rfl⟩

/-- Witness for C1 on the spec §8 scenario plus a singleton key. -/
theorem C1_witness :
    dictLookup (dictInsertAll (finalizePairs
        [("svcX(1)_callY(z)", ["d/a.cache", "d/b.cache"]), ("t()_u()", ["d/c.cache"])]))
        "svcX(1)_callY(z)_a" = some "d/a.cache" ∧
    dictLookup (dictInsertAll (finalizePairs
        [("svcX(1)_callY(z)", ["d/a.cache", "d/b.cache"]), ("t()_u()", ["d/c.cache"])]))
        "svcX(1)_callY(z)_b" = some "d/b.cache" ∧
    dictLookup (dictInsertAll (finalizePairs
        [("svcX(1)_callY(z)", ["d/a.cache", "d/b.cache"]), ("t()_u()", ["d/c.cache"])]))
        "svcX(1)_callY(z)" = none ∧
    dictLookup (dictInsertAll (finalizePairs
        [("svcX(1)_callY(z)", ["d/a.cache", "d/b.cache"]), ("t()_u()", ["d/c.cache"])]))
        "t()_u()" = some "d/c.cache" := by
  have hcol := C1_collision_resolution chosenSecure
    [⟨"d/a.cache", .ok specRec⟩, ⟨"d/b.cache", .ok specRec⟩, ⟨"d/c.cache", .ok otherRec⟩]
    [("svcX(1)_callY(z)", ["d/a.cache", "d/b.cache"]), ("t()_u()", ["d/c.cache"])] []
    "svcX(1)_callY(z)" ["d/a.cache", "d/b.cache"] rfl (by decide) (by decide) (by decide)
  have hsingle := C1_collision_resolution chosenSecure
    [⟨"d/a.cache", .ok specRec⟩, ⟨"d/b.cache", .ok specRec⟩, ⟨"d/c.cache", .ok otherRec⟩]
    [("svcX(1)_callY(z)", ["d/a.cache", "d/b.cache"]), ("t()_u()", ["d/c.cache"])] []
    "t()_u()" ["d/c.cache"] rfl (by decide) (by decide) (by decide)
  refine ⟨?_, ?_, (hcol.2 (by decide)).2, hsingle.1 "d/c.cache" rfl⟩
  · exact (hcol.2 (by decide)).1 "d/a.cache" (by decide)
  · exact (hcol.2 (by decide)).1 "d/b.cache" (by decide)

/-- C2 (amended): provided the file paths are pairwise distinct and the
finalized names are pairwise distinct, the finalized index has pairwise
distinct names and every successfully loaded file's path appears as the
value of exactly one index entry (without the distinct-names proviso a
collision-suffixed name can coincide with another final name and overwrite
its entry; see the counterexample). -/
theorem C2_index_covers_loaded_files (secure : PyObj → String) (files : List ScanFile)
    (gs : List (String × List String)) (ds : List String)
    (hscan : buildGroups secure files = .ok (gs, ds))
    (hpaths : (files.map ScanFile.path).Nodup)
    (hnames : (finalNames gs).Nodup) :
    ((dictInsertAll (finalizePairs gs)).map Prod.fst).Nodup ∧
    ∀ f ∈ files, ∀ info, f.outcome = .ok info →
      (dictInsertAll (finalizePairs gs)).countP (fun e => e.2 == f.path) = 1 := by
  have hall : dictInsertAll (finalizePairs gs) = finalizePairs gs :=
    dictInsertAll_of_nodup hnames
  constructor
  · rw [hall]
    exact hnames
  intro f hf info hinfo
  obtain ⟨k, hk⟩ := scan_ok_derives hscan f hf info hinfo
  have hfk : fileKeyed secure files k f.path := ⟨f, info, hf, rfl, hinfo, hk⟩
  rw [hall]
  have hcount : (finalizePairs gs).countP (fun e => e.2 == f.path)
      = (allPaths gs).count f.path := by
    rw [List.count_eq_countP, ← finalizePairs_snd gs, List.countP_map]
    rfl
  rw [hcount]
  have hkey : ∀ k1 ps1 k2 ps2 p, (k1, ps1) ∈ gs → (k2, ps2) ∈ gs →
      p ∈ ps1 → p ∈ ps2 → k1 = k2 := by
    intro k1 ps1 k2 ps2 p hm1 hm2 hp1 hp2
    exact key_unique hpaths ((group_mem_iff hscan hm1 p).mp hp1)
      ((group_mem_iff hscan hm2 p).mp hp2)
  have hnodup := allPaths_nodup (buildGroups_fst_nodup hscan)
    (buildGroups_ps_nodup hscan) hkey
  have hmem : f.path ∈ allPaths gs := by
    rw [mem_allPaths]
    obtain ⟨ps2, hm2, hp2⟩ := (buildGroups_memGroups hscan k f.path).mpr hfk
    exact ⟨k, ps2, hm2, hp2⟩
  exact List.count_eq_one_of_mem hnodup hmem

/-- Counterexample to C2 as stated: three loadable files, but the bare key
of `z.cache` coincides with the collision-suffixed name of `c().cache`, the
later dict assignment overwrites the earlier one, and `c().cache` is left
with no entry at all. -/
theorem C2_counterexample :
    buildMap chosenSecure [fileX, fileCParen, fileZ]
      = .ok [("s()_c()_x", "d/x.cache"), ("s()_c()_c()", "d/z.cache")] ∧
    fileCParen.outcome = .ok [.atom "s", .atom "c"] ∧
    ¬ ("d/c().cache" ∈
        ([("s()_c()_x", "d/x.cache"), ("s()_c()_c()", "d/z.cache")]).map Prod.snd) := by
  refine ⟨rfl, rfl, ?_⟩
  decide

/-- Witness for C2 on the spec §8 scenario plus a singleton key. -/
theorem C2_witness :
    ((dictInsertAll (finalizePairs
        [("svcX(1)_callY(z)", ["d/a.cache", "d/b.cache"]),
         ("t()_u()", ["d/c.cache"])])).map Prod.fst).Nodup ∧
    (dictInsertAll (finalizePairs
        [("svcX(1)_callY(z)", ["d/a.cache", "d/b.cache"]),
         ("t()_u()", ["d/c.cache"])])).countP (fun e => e.2 == "d/a.cache") = 1 ∧
    (dictInsertAll (finalizePairs
        [("svcX(1)_callY(z)", ["d/a.cache", "d/b.cache"]),
         ("t()_u()", ["d/c.cache"])])).countP (fun e => e.2 == "d/c.cache") = 1 := by
  have h := C2_index_covers_loaded_files chosenSecure
    [⟨"d/a.cache", .ok specRec⟩, ⟨"d/b.cache", .ok specRec⟩, ⟨"d/c.cache", .ok otherRec⟩]
    [("svcX(1)_callY(z)", ["d/a.cache", "d/b.cache"]), ("t()_u()", ["d/c.cache"])] []
    rfl (by decide) (by decide)
  refine ⟨h.1, ?_, ?_⟩
  · exact h.2 ⟨"d/a.cache", .ok specRec⟩ (by simp) specRec rfl
  · exact h.2 ⟨"d/c.cache", .ok otherRec⟩ (by simp) otherRec rfl

/-- C6 (amended): for a fixed set of files, the finalized name → path
mapping is the same function for every enumeration order, provided the
finalized names are pairwise distinct (without that proviso the mapping
depends on dict insertion order; see the counterexample). -/
theorem C6_enumeration_order_independent (secure : PyObj → String)
    (files1 files2 : List ScanFile) (gs1 gs2 : List (String × List String))
    (ds1 ds2 : List String) (hperm : files1.Perm files2)
    (h1 : buildGroups secure files1 = .ok (gs1, ds1))
    (h2 : buildGroups secure files2 = .ok (gs2, ds2))
    (hn1 : (finalNames gs1).Nodup) (hn2 : (finalNames gs2).Nodup) :
    ∀ name, dictLookup (dictInsertAll (finalizePairs gs1)) name
          = dictLookup (dictInsertAll (finalizePairs gs2)) name := by
  intro name
  rw [dictInsertAll_of_nodup hn1, dictInsertAll_of_nodup hn2]
  cases hl : dictLookup (finalizePairs gs1) name with
  | some p =>
    exact (dictLookup_of_mem_nodup hn2
      (finalize_mem_transfer hperm h1 h2 name p (dictLookup_some_mem hl))).symm
  | none =>
    cases hl2 : dictLookup (finalizePairs gs2) name with
    | none => rfl
    | some p =>
      have hmem := finalize_mem_transfer hperm.symm h2 h1 name p (dictLookup_some_mem hl2)
      rw [dictLookup_of_mem_nodup hn1 hmem] at hl
      simp at hl

/-- Counterexample to C6 as stated: the same three files enumerated in two
orders produce different mappings — the coinciding name `s()_c()_c()`
resolves to whichever assignment comes last, and that depends on the
enumeration order. -/
theorem C6_counterexample :
    ([fileZ] ++ [fileX, fileCParen]).Perm ([fileX, fileCParen] ++ [fileZ]) ∧
    buildMap chosenSecure [fileX, fileCParen, fileZ]
      = .ok [("s()_c()_x", "d/x.cache"), ("s()_c()_c()", "d/z.cache")] ∧
    buildMap chosenSecure [fileZ, fileX, fileCParen]
      = .ok [("s()_c()_c()", "d/c().cache"), ("s()_c()_x", "d/x.cache")] ∧
    dictLookup [("s()_c()_x", "d/x.cache"), ("s()_c()_c()", "d/z.cache")] "s()_c()_c()"
      = some "d/z.cache" ∧
    dictLookup [("s()_c()_c()", "d/c().cache"), ("s()_c()_x", "d/x.cache")] "s()_c()_c()"
      = some "d/c().cache" :=
  ⟨List.perm_append_comm, rfl, rfl, rfl, rfl⟩

/-- Witness for C6: two orders of a two-file directory with distinct keys
resolve every name identically. -/
theorem C6_witness :
    dictLookup (dictInsertAll (finalizePairs
        [("svcX(1)_callY(z)", ["d/a.cache"]), ("t()_u()", ["d/c.cache"])]))
        "svcX(1)_callY(z)"
      = dictLookup (dictInsertAll (finalizePairs
        [("t()_u()", ["d/c.cache"]), ("svcX(1)_callY(z)", ["d/a.cache"])]))
        "svcX(1)_callY(z)" ∧
    dictLookup (dictInsertAll (finalizePairs
        [("svcX(1)_callY(z)", ["d/a.cache"]), ("t()_u()", ["d/c.cache"])]))
        "t()_u()"
      = dictLookup (dictInsertAll (finalizePairs
        [("t()_u()", ["d/c.cache"]), ("svcX(1)_callY(z)", ["d/a.cache"])]))
        "t()_u()" ∧
    dictLookup (dictInsertAll (finalizePairs
        [("svcX(1)_callY(z)", ["d/a.cache"]), ("t()_u()", ["d/c.cache"])]))
        "absent"
      = dictLookup (dictInsertAll (finalizePairs
        [("t()_u()", ["d/c.cache"]), ("svcX(1)_callY(z)", ["d/a.cache"])]))
        "absent" := by
  have h := C6_enumeration_order_independent chosenSecure
    [⟨"d/a.cache", .ok specRec⟩, ⟨"d/c.cache", .ok otherRec⟩]
    [⟨"d/c.cache", .ok otherRec⟩, ⟨"d/a.cache", .ok specRec⟩]
    [("svcX(1)_callY(z)", ["d/a.cache"]), ("t()_u()", ["d/c.cache"])]
    [("t()_u()", ["d/c.cache"]), ("svcX(1)_callY(z)", ["d/a.cache"])] [] []
    (List.perm_append_comm :
      ([(⟨"d/a.cache", .ok specRec⟩ : ScanFile)] ++ [(⟨"d/c.cache", .ok otherRec⟩ : ScanFile)]).Perm
        ([(⟨"d/c.cache", .ok otherRec⟩ : ScanFile)] ++ [(⟨"d/a.cache", .ok specRec⟩ : ScanFile)]))
    rfl rfl (by decide) (by decide)
  exact ⟨h "svcX(1)_callY(z)", h "t()_u()", h "absent"⟩

end Phobos
